import Mathlib

/-!
# netchat: the room registry, the chat session and the query parser of `src/server.cpp`

Modelling conventions.

* A `std::string` is a Lean `String`; the parsing helpers work on its list of
  characters, one character standing for one `char` of the C++ string.  The
  string literals of the source are written as they appear in the source file.
* A `ChatSession*` is a natural number `Conn` (the identity of the session
  object).
* `main` calls `ioc.run()` from one thread only, so every completion handler
  runs to its end before the next one starts: a handler is one atomic step of
  the model, and `ChatState::mu` is never contended.
* `fail` only prints to `std::cerr`; it has no effect on the modelled state.
-/

namespace NetChat

/-! ## `url_decode` and `parse_query` -/

/-- Value of `c` as a base-16 digit, the way `std::strtol(_, _, 16)` reads it. -/
def hex_digit (c : Char) : Option Nat :=
  if 48 ≤ c.toNat ∧ c.toNat ≤ 57 then some (c.toNat - 48)
  else if 97 ≤ c.toNat ∧ c.toNat ≤ 102 then some (c.toNat - 87)
  else if 65 ≤ c.toNat ∧ c.toNat ≤ 70 then some (c.toNat - 55)
  else none

/-- The characters `isspace` accepts in the "C" locale: space, `\t \n \v \f \r`. -/
def is_space (c : Char) : Bool :=
  c.toNat = 32 || (9 ≤ c.toNat && c.toNat ≤ 13)

/-- The digit loop of `strtol`: consume base-16 digits until the first character
that is not one. -/
def hex_digits : Nat → List Char → Nat
  | acc, [] => acc
  | acc, c :: cs =>
    match hex_digit c with
    | some d => hex_digits (16 * acc + d) cs
    | none => acc

/-- `std::strtol(hex.c_str(), nullptr, 16)`: the C string stops at the first NUL;
leading white space is skipped, one optional sign is read, an optional `0x`/`0X`
is skipped when a digit follows it, then the digits are read.  No digit gives 0.
`url_decode` passes two characters, so the clamping of `strtol` to the range of
`long` never applies and is not modelled. -/
def strtol16 (hex : List Char) : Int :=
  let s0 := hex.takeWhile (fun c => c.toNat ≠ 0)
  let s1 := s0.dropWhile is_space
  let neg : Bool := s1.head? = some '-'
  let s2 := match s1 with
    | c :: t => if c = '-' ∨ c = '+' then t else s1
    | [] => s1
  let s3 := match s2 with
    | z :: x :: h :: t =>
      if z = '0' ∧ (x = 'x' ∨ x = 'X') ∧ (hex_digit h).isSome then h :: t else s2
    | _ => s2
  if neg then - (hex_digits 0 s3 : Int) else (hex_digits 0 s3 : Int)

/-- The loop of `url_decode` on the characters from index `i` on.  The test
`s[i]=='%' && i+2<s.size()` holds when `%` is followed by at least two
characters (first case below); `i += 2` then skips both, and
`static_cast<char>` keeps the low byte.  With fewer than two characters left
(last case) a `%` is copied like any other character. -/
def url_decode_loop : List Char → List Char
  | [] => []
  | c :: a :: b :: rest =>
    if c = '%' then Char.ofNat (strtol16 [a, b] % 256).toNat :: url_decode_loop rest
    else if c = '+' then ' ' :: url_decode_loop (a :: b :: rest)
    else c :: url_decode_loop (a :: b :: rest)
  | c :: rest =>
    if c = '+' then ' ' :: url_decode_loop rest
    else c :: url_decode_loop rest

/-- `url_decode(s)`. -/
def url_decode (s : String) : String :=
  String.mk (url_decode_loop s.data)

/-- `s.find(d)` together with the two substrings the callers take around the
position found: `s.substr(0, pos)` and `s.substr(pos + 1)`; `none` is `npos`. -/
def find_split (d : Char) : List Char → Option (List Char × List Char)
  | [] => none
  | c :: cs =>
    if c = d then some ([], cs)
    else match find_split d cs with
      | some (k, v) => some (c :: k, v)
      | none => none

/-- `boost::split(parts, qs, boost::is_any_of(d))` with the default
`token_compress_off`: one part per delimiter plus one, empty parts kept. -/
def split_on (d : Char) : List Char → List (List Char)
  | [] => [[]]
  | c :: cs =>
    if c = d then [] :: split_on d cs
    else match split_on d cs with
      | [] => [[c]]
      | p :: ps => (c :: p) :: ps

/-- The `std::unordered_map<std::string, std::string>` of `parse_query`:
`q k = none` is `q.count(k) == 0`. -/
abbrev QueryMap := String → Option String

/-- Assignment `q[k] = v`. -/
def QueryMap.set (q : QueryMap) (k v : String) : QueryMap :=
  fun x => if x = k then some v else q x

/-- Body of the `for (auto &kv: parts)` loop of `parse_query`. -/
def parse_part (q : QueryMap) (kv : List Char) : QueryMap :=
  match find_split '=' kv with
  | some (k, v) => q.set (String.mk k) (url_decode (String.mk v))
  | none => q

/-- `parse_query(target)`. -/
def parse_query (target : String) : QueryMap :=
  match find_split '?' target.data with
  | none => fun _ => none
  | some (_, qs) => (split_on '&' qs).foldl parse_part (fun _ => none)

/-! ## `ChatState`: the room registry -/

/-- Identity of a session object (a `ChatSession*`).  A session leaves the
registry before it is destroyed, so an identity is never reused while
registered. -/
abbrev Conn := Nat

/-- `ChatState`: `rooms` maps a room name to its set of sessions; `none` means the
map has no entry for the name.  The mutex is not modelled (one thread runs all
handlers). -/
structure ChatState where
  rooms : String → Option (Finset Conn)

/-- The registry of a freshly constructed `ChatState`. -/
def ChatState.empty : ChatState :=
  ⟨fun _ => none⟩

/-- `ChatState::join`: `rooms[room].insert(s)`; `operator[]` creates an empty set
when the room has no entry. -/
def ChatState.join (st : ChatState) (room : String) (s : Conn) : ChatState :=
  ⟨fun r => if r = room then some (insert s ((st.rooms room).getD ∅)) else st.rooms r⟩

/-- `ChatState::leave`: when the room is found, erase `s` and erase the room entry
if the set became empty. -/
def ChatState.leave (st : ChatState) (room : String) (s : Conn) : ChatState :=
  match st.rooms room with
  | none => st
  | some m =>
    if m.erase s = ∅ then ⟨fun r => if r = room then none else st.rooms r⟩
    else ⟨fun r => if r = room then some (m.erase s) else st.rooms r⟩

/-- The sessions `for_each_in(room, fn)` calls `fn` on: the set found under
`room`, or nothing when `rooms.find(room)` is `rooms.end()`. -/
def ChatState.members (st : ChatState) (room : String) : Finset Conn :=
  match st.rooms room with
  | none => ∅
  | some m => m

/-- One call on the registry. -/
inductive RegOp where
  | join (room : String) (s : Conn)
  | leave (room : String) (s : Conn)
deriving DecidableEq

/-- Apply one registry call. -/
def ChatState.apply (st : ChatState) : RegOp → ChatState
  | .join room s => st.join room s
  | .leave room s => st.leave room s

/-- Apply a sequence of registry calls, first call first. -/
def ChatState.applyAll (st : ChatState) (ops : List RegOp) : ChatState :=
  ops.foldl ChatState.apply st

/-- Room named by a registry call. -/
def RegOp.room : RegOp → String
  | .join room _ => room
  | .leave room _ => room

/-- Session named by a registry call. -/
def RegOp.conn : RegOp → Conn
  | .join _ s => s
  | .leave _ s => s

/-- Whether the call is a join. -/
def RegOp.isJoin : RegOp → Bool
  | .join _ _ => true
  | .leave _ _ => false

/-- Reference model, written from the specification: `s` is in `S_r` when the
most recent call with room `r` and session `s` exists and is a join. -/
def lastCallIsJoin (r : String) (s : Conn) (ops : List RegOp) : Bool :=
  match ops.reverse.find? (fun op => op.room = r ∧ op.conn = s) with
  | some op => op.isJoin
  | none => false

/-! ## `ChatSession` and the handlers -/

/-- The state of one `ChatSession`.  `room_`, `name_` and `send_q_` are the
members of the source.  The other fields model the Asio runtime and record
history:

* `strand_q`: the texts of the lambdas `send_text` has posted to `strand_` and
  that have not run yet; a strand runs posted handlers in the order posted;
* `accepting`, `reading`: an `async_accept` / `async_read` is outstanding;
* `writing`: the number of `async_write` operations started and not completed;
* `sent`, `pushed`, `wire`: every text passed to `send_text`, every text pushed
  on `send_q_`, and every text handed to `async_write`, each in order.  No
  handler reads these three. -/
structure ChatSession where
  room_ : String
  name_ : String
  send_q_ : List String
  strand_q : List String
  accepting : Bool
  reading : Bool
  writing : Nat
  sent : List String
  pushed : List String
  wire : List String

/-- `ChatSession::run(req)` on a newly constructed session: `room_` and `name_`
are read from the request target, then `async_accept` is started. -/
def ChatSession.run (target : String) : ChatSession :=
  { room_ := match parse_query target "room" with
      | some v => v
      | none => "lobby"
    name_ := match parse_query target "name" with
      | some v => v
      | none => "Guest"
    send_q_ := [], strand_q := [], accepting := true, reading := false, writing := 0,
    sent := [], pushed := [], wire := [] }

/-- `ChatSession::send_text(text)`: post the lambda carrying `text` to `strand_`.
`net::post` never runs the lambda inside the call. -/
def ChatSession.send_text (s : ChatSession) (text : String) : ChatSession :=
  { s with strand_q := s.strand_q ++ [text], sent := s.sent ++ [text] }

/-- `ChatSession::do_write`: start `async_write` on `send_q_.front()`.  Every call
site has a non-empty queue. -/
def ChatSession.do_write (s : ChatSession) : ChatSession :=
  match s.send_q_ with
  | [] => s
  | t :: _ => { s with writing := s.writing + 1, wire := s.wire ++ [t] }

/-- The lambda posted by `send_text`, run on the strand: `push_back(t)` and, when
the queue now has exactly one element, `do_write()`. -/
def ChatSession.send_text_posted (s : ChatSession) (t : String) : ChatSession :=
  let s1 := { s with send_q_ := s.send_q_ ++ [t], pushed := s.pushed ++ [t] }
  if s1.send_q_.length = 1 then s1.do_write else s1

/-- The success branch of `ChatSession::on_write`: `pop_front()` and, when the
queue is not empty, `do_write()`.  (`pop_front` on an empty deque is undefined
in C++; `writeInv_micro` shows the queue is not empty when a write completes.) -/
def ChatSession.on_write_ok (s : ChatSession) : ChatSession :=
  let s1 := { s with send_q_ := s.send_q_.tail }
  if s1.send_q_ ≠ [] then s1.do_write else s1

/-- The whole server: the one `ChatState` and the session objects. -/
structure World where
  state_ : ChatState
  sess : Conn → ChatSession

/-- Replace the session `c`. -/
def World.setSess (w : World) (c : Conn) (s : ChatSession) : World :=
  { w with sess := fun d => if d = c then s else w.sess d }

/-- `state_.for_each_in(room, [&](ChatSession* s){ s->send_text(t); })`: every
session of the set found under `room` gets one `send_text(t)`.  The iteration
order of the `unordered_set` does not matter: each call touches only its own
session. -/
def World.for_each_send (w : World) (room : String) (t : String) : World :=
  { w with sess := fun d =>
      if d ∈ w.state_.members room then (w.sess d).send_text t else w.sess d }

/-- `ChatSession::broadcast(t)` of session `c`. -/
def World.broadcast (w : World) (c : Conn) (t : String) : World :=
  w.for_each_send (w.sess c).room_ t

/-- `ChatSession::broadcast_system(t)` of session `c`. -/
def World.broadcast_system (w : World) (c : Conn) (t : String) : World :=
  w.for_each_send (w.sess c).room_ ("[系统] " ++ t)

/-- `ChatSession::on_close` of session `c`: leave, then the leave notice. -/
def World.on_close (w : World) (c : Conn) : World :=
  let w1 : World := { w with state_ := w.state_.leave (w.sess c).room_ c }
  w1.broadcast_system c ((w1.sess c).name_ ++ " 离开了房间")

/-- `ChatSession::do_read` of session `c`: start `async_read`. -/
def World.do_read (w : World) (c : Conn) : World :=
  w.setSess c { w.sess c with reading := true }

/-- `ChatSession::on_accept(ec)` of session `c`; `ec = true` is an error. -/
def World.on_accept (w : World) (c : Conn) (ec : Bool) : World :=
  if ec then w
  else
    let w1 : World := { w with state_ := w.state_.join (w.sess c).room_ c }
    let w2 := w1.broadcast_system c ((w1.sess c).name_ ++ " 加入了房间")
    w2.do_read c

/-- How an `async_read` completes: a text frame, `ws::error::closed`, or any
other error. -/
inductive ReadResult where
  | frame (msg : String)
  | closed
  | error
deriving DecidableEq

/-- `ChatSession::on_read(ec, _)` of session `c`. -/
def World.on_read (w : World) (c : Conn) : ReadResult → World
  | .closed => w.on_close c
  | .error => w.on_close c
  | .frame msg => (w.broadcast c ((w.sess c).name_ ++ ": " ++ msg)).do_read c

/-- `ChatSession::on_write(ec, _)` of session `c`; `ec = true` is an error. -/
def World.on_write (w : World) (c : Conn) (ec : Bool) : World :=
  if ec then w.on_close c
  else w.setSess c (w.sess c).on_write_ok

/-- What can happen next.  `on_accept`, `on_read`, `on_write` and `posted` are the
handlers the event loop invokes.  `send_text` is a call of that public member
from outside the handlers modelled here; the server itself calls it from
`broadcast` and `broadcast_system` only, and no theorem below needs the event
to occur. -/
inductive Event where
  | on_accept (c : Conn) (ec : Bool)
  | on_read (c : Conn) (r : ReadResult)
  | send_text (c : Conn) (t : String)
  | posted (c : Conn)
  | on_write (c : Conn) (ec : Bool)
deriving DecidableEq

/-- One step of the event loop.  A completion handler runs only when its
operation is outstanding, and the operation is no longer outstanding when the
handler starts; a posted lambda runs only when one is pending, oldest first. -/
def step (w : World) : Event → Option World
  | .on_accept c ec =>
    if (w.sess c).accepting then
      some ((w.setSess c { w.sess c with accepting := false }).on_accept c ec)
    else none
  | .on_read c r =>
    if (w.sess c).reading then
      some ((w.setSess c { w.sess c with reading := false }).on_read c r)
    else none
  | .send_text c t => some (w.setSess c ((w.sess c).send_text t))
  | .posted c =>
    match (w.sess c).strand_q with
    | [] => none
    | t :: rest => some (w.setSess c ({ w.sess c with strand_q := rest }.send_text_posted t))
  | .on_write c ec =>
    if 0 < (w.sess c).writing then
      some ((w.setSess c { w.sess c with writing := (w.sess c).writing - 1 }).on_write c ec)
    else none

/-- The event loop (`ioc.run()`) handling the events `evs` in order; `none` when
some event cannot occur in the state reached. -/
def run (w : World) : List Event → Option World
  | [] => some w
  | e :: es =>
    match step w e with
    | some w1 => run w1 es
    | none => none

/-- The server after `HttpSession::on_read` has created one session per
identity `c` from an upgrade request with target `targets c` and called `run`
on it: empty registry, every `async_accept` outstanding. -/
def World.init (targets : Conn → String) : World :=
  { state_ := ChatState.empty, sess := fun c => ChatSession.run (targets c) }

/-- The events C2 and C3 speak of, on session `c`: a call of `send_text`, the run
of a posted lambda, and a write completion without error. -/
def Event.isQueueEvent (c : Conn) : Event → Bool
  | .send_text d _ => d = c
  | .posted d => d = c
  | .on_write d ec => d = c && !ec
  | _ => false

/-- The texts passed to `send_text` on session `c`, in call order. -/
def enqueued (c : Conn) : List Event → List String
  | [] => []
  | .send_text d t :: es => if d = c then t :: enqueued c es else enqueued c es
  | _ :: es => enqueued c es

/-- The registry agrees with the reference model on every room. -/
def Refines (st : ChatState) (ops : List RegOp) : Prop :=
  ∀ r, match st.rooms r with
    | none => ∀ s, lastCallIsJoin r s ops = false
    | some m => m.Nonempty ∧ ∀ s, s ∈ m ↔ lastCallIsJoin r s ops = true

/-! ## Relations and invariants used in the proofs -/

/-- The elementary changes a session undergoes.  `wf` tells whether a failed write
completion is among the changes allowed. -/
inductive Micro (wf : Bool) : ChatSession → ChatSession → Prop where
  | send (s : ChatSession) (t : String) : Micro wf s (s.send_text t)
  | accepted (s : ChatSession) : Micro wf s { s with accepting := false }
  | reading (s : ChatSession) (b : Bool) : Micro wf s { s with reading := b }
  | posted (s : ChatSession) (t : String) (rest : List String) :
      s.strand_q = t :: rest →
      Micro wf s ({ s with strand_q := rest }.send_text_posted t)
  | wrote_ok (s : ChatSession) : 0 < s.writing →
      Micro wf s ({ s with writing := s.writing - 1 }.on_write_ok)
  | wrote_err (s : ChatSession) : wf = true → 0 < s.writing →
      Micro wf s { s with writing := s.writing - 1 }

/-- Finitely many elementary changes in a row. -/
abbrev Micros (wf : Bool) : ChatSession → ChatSession → Prop :=
  Relation.ReflTransGen (Micro wf)

/-- At most one write is outstanding, and an outstanding write has its text at
the front of the queue. -/
def WriteInv (s : ChatSession) : Prop :=
  s.writing ≤ 1 ∧ (s.writing = 1 → s.send_q_ ≠ [])

/-- Relation of the logs to the queues, counted from a moment at which the logs
were `a` (sent), `b` (pushed) and `c` (wire): the writes issued since, `W`, then
the queue behind its front, then the pending lambdas, are what was sent. -/
def LogInv (a b c : List String) (s : ChatSession) : Prop :=
  ∃ W, s.wire = c ++ W ∧ s.pushed = b ++ W ++ s.send_q_.tail ∧
    s.sent = a ++ W ++ s.send_q_.tail ++ s.strand_q

/-- No write outstanding means nothing is queued: true as long as no write has
failed. -/
def DrainInv (s : ChatSession) : Prop :=
  s.writing = 0 → s.send_q_ = []

/-- Every registered session is registered under its own room key and has its
upgrade behind it. -/
def RegInv (w : World) : Prop :=
  ∀ r d, d ∈ w.state_.members r → (w.sess d).room_ = r ∧ (w.sess d).accepting = false

/-- The leave notice of session `c`, as `on_close` builds it. -/
def leave_notice (w : World) (c : Conn) : String :=
  "[系统] " ++ ((w.sess c).name_ ++ " 离开了房间")

/-- The join notice of session `c`, as `on_accept` builds it. -/
def join_notice (w : World) (c : Conn) : String :=
  "[系统] " ++ ((w.sess c).name_ ++ " 加入了房间")

/-- Session `c` is registered nowhere and its upgrade is behind it. -/
def Gone (c : Conn) (w : World) : Prop :=
  (w.sess c).accepting = false ∧ ∀ r, c ∉ w.state_.members r

/-! ## A small concrete server, on which the model is evaluated -/

/-- Request targets of the example: sessions 0 and 1 ask for room `r1` as Alice
and Bob, session 2 names itself Carol and gives no room, the others send a
bare `/ws`. -/
def demo_targets : Conn → String := fun c =>
  if c = 0 then "/ws?room=r1&name=Alice"
  else if c = 1 then "/ws?name=Bob&room=r1"
  else if c = 2 then "/ws?name=Carol"
  else "/ws"

/-- The example server before any event. -/
def demo : World :=
  World.init demo_targets

/-- The world after the events `evs` of the example, or the initial one when
they cannot occur. -/
def demo_after (evs : List Event) : World :=
  (run demo evs).getD demo

/-- Alice and Bob are accepted, in this order. -/
def demo_joined : List Event :=
  [Event.on_accept 0 false, Event.on_accept 1 false]

/-- Bob's first queued text is being written and the write fails. -/
def demo_write_failed : List Event :=
  demo_joined ++ [Event.posted 1, Event.on_write 1 true]

/-- Two texts are sent to session 3, pushed and written, the second one pushed
while the first write is outstanding. -/
def demo_queue : List Event :=
  [Event.send_text 3 "a", Event.posted 3, Event.send_text 3 "b", Event.posted 3,
    Event.on_write 3 false, Event.on_write 3 false]

/-- Alice sends two frames; Bob's queue is drained afterwards. -/
def demo_order : List Event :=
  demo_joined ++ [Event.on_read 0 (ReadResult.frame "one"), Event.posted 1,
    Event.on_read 0 (ReadResult.frame "two"), Event.posted 1, Event.posted 1,
    Event.on_write 1 false, Event.on_write 1 false, Event.on_write 1 false]

/-- Registry calls of the example: a repeated join, a leave, and a leave in a room
that was never joined. -/
def demo_ops : List RegOp :=
  [RegOp.join "a" 1, RegOp.join "a" 2, RegOp.join "a" 1, RegOp.leave "a" 1, RegOp.leave "b" 7]

/-! ## The registry against its reference model (C1) -/

theorem applyAll_append (st : ChatState) (ops : List RegOp) (op : RegOp) :
    st.applyAll (ops ++ [op]) = (st.applyAll ops).apply op := by
  simp [ChatState.applyAll, List.foldl_append]

theorem lastCallIsJoin_append (r : String) (s : Conn) (ops : List RegOp) (op : RegOp) :
    lastCallIsJoin r s (ops ++ [op]) =
      if op.room = r ∧ op.conn = s then op.isJoin else lastCallIsJoin r s ops := by
  unfold lastCallIsJoin
  rw [List.reverse_append, List.reverse_singleton, List.singleton_append, List.find?_cons]
  by_cases h : op.room = r ∧ op.conn = s
  · simp [h]
  · simp [h]

theorem refines_apply (st : ChatState) (ops : List RegOp) (op : RegOp)
    (h : Refines st ops) : Refines (st.apply op) (ops ++ [op]) := by
  intro r
  have hr := h r
  cases op with
  | join room c =>
    simp only [ChatState.apply, ChatState.join, lastCallIsJoin_append, RegOp.room, RegOp.conn,
      RegOp.isJoin]
    by_cases hrr : r = room
    · subst hrr
      simp only [if_true]
      refine ⟨⟨c, Finset.mem_insert_self _ _⟩, fun s => ?_⟩
      cases hm : st.rooms r with
      | none =>
        rw [hm] at hr
        by_cases hs : c = s <;> simp [hs, hr s]
        exact fun h => hs h.symm
      | some m =>
        rw [hm] at hr
        by_cases hs : c = s
        · simp [hs]
        · have hs2 : ¬ s = c := fun h => hs h.symm
          simp [hs, hs2, hr.2 s]
    · have hrr2 : ¬ room = r := fun h => hrr h.symm
      simp only [hrr, hrr2, if_false, false_and]
      exact hr
  | leave room c =>
    simp only [ChatState.apply, ChatState.leave, lastCallIsJoin_append, RegOp.room, RegOp.conn,
      RegOp.isJoin]
    by_cases hrr : r = room
    · subst hrr
      cases hm : st.rooms r with
      | none =>
        rw [hm] at hr
        simp only [hm]
        intro s
        by_cases hs : c = s <;> simp [hs, hr s]
      | some m =>
        rw [hm] at hr
        simp only []
        by_cases he : m.erase c = ∅
        · simp only [he, if_true]
          intro s
          by_cases hs : c = s
          · simp [hs]
          · simp only [hs, and_false, if_false]
            have : s ∉ m.erase c := by rw [he]; exact Finset.not_mem_empty s
            rw [Finset.mem_erase] at this
            have hs2 : s ≠ c := fun h => hs h.symm
            have hn : s ∉ m := fun hmem => this ⟨hs2, hmem⟩
            rw [hr.2 s] at hn
            simpa using hn
        · simp only [he, if_false, if_true]
          refine ⟨Finset.nonempty_iff_ne_empty.mpr he, fun s => ?_⟩
          by_cases hs : c = s
          · subst hs; simp
          · have hs2 : s ≠ c := fun h => hs h.symm
            simp [hs, hs2, hr.2 s]
    · have hrr2 : ¬ room = r := fun h => hrr h.symm
      cases hm : st.rooms room with
      | none => simp only [hrr2, false_and, if_false]; exact hr
      | some m =>
        simp only []
        by_cases he : m.erase c = ∅
        · simp only [he, if_true, hrr, hrr2, if_false, false_and]; exact hr
        · simp only [he, if_false, hrr, hrr2, false_and]; exact hr

theorem refines_applyAll (ops : List RegOp) : Refines (ChatState.empty.applyAll ops) ops := by
  induction ops using List.reverseRecOn with
  | nil => intro r; simp [ChatState.applyAll, ChatState.empty, lastCallIsJoin]
  | append_singleton ops op ih =>
    rw [applyAll_append]
    exact refines_apply _ _ _ ih

theorem join_of_member (st : ChatState) (r : String) (s : Conn) (m : Finset Conn)
    (hm : st.rooms r = some m) (hs : s ∈ m) : st.join r s = st := by
  cases st with
  | mk rooms =>
    simp only [ChatState.join, ChatState.mk.injEq]
    funext x
    by_cases hx : x = r
    · subst hx
      simp only [if_true]
      simp only at hm
      rw [hm]
      simp [Finset.insert_eq_of_mem hs]
    · simp [hx]

theorem leave_of_not_member (st : ChatState) (r : String) (s : Conn)
    (h : match st.rooms r with
      | none => True
      | some m => m.Nonempty ∧ s ∉ m) : st.leave r s = st := by
  cases st with
  | mk rooms =>
    simp only [ChatState.leave]
    simp only at h
    cases hm : rooms r with
    | none => rfl
    | some m =>
      rw [hm] at h
      simp only
      have he : m.erase s = m := Finset.erase_eq_of_not_mem h.2
      have hne : ¬ m = ∅ := Finset.nonempty_iff_ne_empty.mp h.1
      rw [he]
      simp only [hne, if_false, ChatState.mk.injEq]
      funext x
      by_cases hx : x = r
      · subst hx; simp [hm]
      · simp [hx]

/-- Claim C1.  After any finite sequence of `join` and `leave` calls on an empty
registry, and for every room `r`: when no session has a join as its most recent
call on `r`, the registry has no entry for `r`; otherwise the entry of `r` is a
non-empty set whose members are exactly the sessions whose most recent call on
`r` is a join.  Consequently joining a session that is a member again, and
leaving with a session that is not a member (or in a room without entry),
return the same registry. -/
theorem registry_equals_reference_model (ops : List RegOp) (r : String) :
    (match (ChatState.empty.applyAll ops).rooms r with
      | none => ∀ s, lastCallIsJoin r s ops = false
      | some m => m.Nonempty ∧ ∀ s, s ∈ m ↔ lastCallIsJoin r s ops = true) ∧
    (∀ s, lastCallIsJoin r s ops = true →
      (ChatState.empty.applyAll ops).join r s = ChatState.empty.applyAll ops) ∧
    (∀ s, lastCallIsJoin r s ops = false →
      (ChatState.empty.applyAll ops).leave r s = ChatState.empty.applyAll ops) := by
  have h := refines_applyAll ops r
  refine ⟨h, fun s hs => ?_, fun s hs => ?_⟩
  · cases hm : (ChatState.empty.applyAll ops).rooms r with
    | none =>
      rw [hm] at h
      rw [h s] at hs
      exact absurd hs (by decide)
    | some m =>
      rw [hm] at h
      exact join_of_member _ _ _ _ hm ((h.2 s).mpr hs)
  · apply leave_of_not_member
    cases hm : (ChatState.empty.applyAll ops).rooms r with
    | none => trivial
    | some m =>
      rw [hm] at h
      refine ⟨h.1, fun hmem => ?_⟩
      rw [(h.2 s).mp hmem] at hs
      exact absurd hs (by decide)

/-! ## What one event does to one session -/

theorem micro_weaken {wf : Bool} {s s1 : ChatSession} (h : Micro wf s s1) : Micro true s s1 := by
  cases h with
  | send t => exact Micro.send s t
  | accepted => exact Micro.accepted s
  | reading b => exact Micro.reading s b
  | posted t rest hq => exact Micro.posted s t rest hq
  | wrote_ok hw => exact Micro.wrote_ok s hw
  | wrote_err _ hw => exact Micro.wrote_err s rfl hw

theorem micros_weaken {wf : Bool} {s s1 : ChatSession} (h : Micros wf s s1) : Micros true s s1 :=
  Relation.ReflTransGen.mono (fun _ _ h => micro_weaken h) h

theorem micros_preserves {wf : Bool} {P : ChatSession → Prop}
    (hP : ∀ s s1, P s → Micro wf s s1 → P s1) {s s1 : ChatSession}
    (h : Micros wf s s1) (hs : P s) : P s1 := by
  induction h with
  | refl => exact hs
  | tail _ hstep ih => exact hP _ _ ih hstep

@[simp]
theorem setSess_sess_self (w : World) (c : Conn) (s : ChatSession) :
    (w.setSess c s).sess c = s := by
  simp [World.setSess]

theorem setSess_sess_of_ne (w : World) (c d : Conn) (s : ChatSession) (h : d ≠ c) :
    (w.setSess c s).sess d = w.sess d := by
  simp [World.setSess, h]

@[simp]
theorem setSess_state (w : World) (c : Conn) (s : ChatSession) :
    (w.setSess c s).state_ = w.state_ := rfl

@[simp]
theorem for_each_send_state (w : World) (room t : String) :
    (w.for_each_send room t).state_ = w.state_ := rfl

theorem for_each_send_sess (w : World) (room t : String) (d : Conn) :
    (w.for_each_send room t).sess d =
      if d ∈ w.state_.members room then (w.sess d).send_text t else w.sess d := rfl

theorem for_each_send_micros (wf : Bool) (w : World) (room t : String) (d : Conn) :
    Micros wf (w.sess d) ((w.for_each_send room t).sess d) := by
  rw [for_each_send_sess]
  split
  · exact Relation.ReflTransGen.single (Micro.send _ t)
  · exact Relation.ReflTransGen.refl

theorem on_close_micros (wf : Bool) (w : World) (c d : Conn) :
    Micros wf (w.sess d) ((w.on_close c).sess d) := by
  unfold World.on_close World.broadcast_system
  exact for_each_send_micros wf ⟨w.state_.leave (w.sess c).room_ c, w.sess⟩ _ _ d

theorem do_read_micros (wf : Bool) (w : World) (c d : Conn) :
    Micros wf (w.sess d) ((w.do_read c).sess d) := by
  unfold World.do_read
  by_cases h : d = c
  · subst h
    rw [setSess_sess_self]
    exact Relation.ReflTransGen.single (Micro.reading _ true)
  · rw [setSess_sess_of_ne _ _ _ _ h]

theorem on_accept_micros (wf : Bool) (w : World) (c d : Conn) (ec : Bool) :
    Micros wf (w.sess d) ((w.on_accept c ec).sess d) := by
  unfold World.on_accept
  cases ec with
  | true => exact Relation.ReflTransGen.refl
  | false =>
    simp only [Bool.false_eq_true, if_false]
    refine Relation.ReflTransGen.trans ?_ (do_read_micros wf _ c d)
    unfold World.broadcast_system
    exact for_each_send_micros wf ⟨w.state_.join (w.sess c).room_ c, w.sess⟩ _ _ d

theorem on_read_micros (wf : Bool) (w : World) (c d : Conn) (r : ReadResult) :
    Micros wf (w.sess d) ((w.on_read c r).sess d) := by
  cases r with
  | closed => exact on_close_micros wf w c d
  | error => exact on_close_micros wf w c d
  | frame msg =>
    unfold World.on_read
    refine Relation.ReflTransGen.trans ?_ (do_read_micros wf _ c d)
    unfold World.broadcast
    exact for_each_send_micros wf _ _ _ d

/-- Each event changes each session by elementary changes only, and a failed
write completion of session `d` occurs only in the event `on_write d true`. -/
theorem step_micros (w w1 : World) (e : Event) (d : Conn) (h : step w e = some w1) :
    Micros (decide (e = Event.on_write d true)) (w.sess d) (w1.sess d) := by
  cases e with
  | on_accept c ec =>
    simp only [step] at h
    split at h
    · injection h with h
      subst h
      refine Relation.ReflTransGen.trans ?_ (on_accept_micros _ _ c d ec)
      by_cases hd : d = c
      · subst hd
        rw [setSess_sess_self]
        exact Relation.ReflTransGen.single (Micro.accepted _)
      · rw [setSess_sess_of_ne _ _ _ _ hd]
    · exact absurd h (by simp)
  | on_read c r =>
    simp only [step] at h
    split at h
    · injection h with h
      subst h
      refine Relation.ReflTransGen.trans ?_ (on_read_micros _ _ c d r)
      by_cases hd : d = c
      · subst hd
        rw [setSess_sess_self]
        exact Relation.ReflTransGen.single (Micro.reading _ false)
      · rw [setSess_sess_of_ne _ _ _ _ hd]
    · exact absurd h (by simp)
  | send_text c t =>
    simp only [step] at h
    injection h with h
    subst h
    by_cases hd : d = c
    · subst hd
      rw [setSess_sess_self]
      exact Relation.ReflTransGen.single (Micro.send _ t)
    · rw [setSess_sess_of_ne _ _ _ _ hd]
  | posted c =>
    simp only [step] at h
    split at h
    · exact absurd h (by simp)
    · rename_i t rest hq
      injection h with h
      subst h
      by_cases hd : d = c
      · subst hd
        rw [setSess_sess_self]
        exact Relation.ReflTransGen.single (Micro.posted _ t rest hq)
      · rw [setSess_sess_of_ne _ _ _ _ hd]
  | on_write c ec =>
    simp only [step] at h
    split at h
    · rename_i hw
      injection h with h
      subst h
      cases ec with
      | false =>
        simp only [World.on_write, Bool.false_eq_true, if_false]
        by_cases hd : d = c
        · subst hd
          rw [setSess_sess_self, setSess_sess_self]
          exact Relation.ReflTransGen.single (Micro.wrote_ok _ hw)
        · rw [setSess_sess_of_ne _ _ _ _ hd, setSess_sess_of_ne _ _ _ _ hd]
      | true =>
        simp only [World.on_write, if_true]
        refine Relation.ReflTransGen.trans ?_ (on_close_micros _ _ c d)
        by_cases hd : d = c
        · subst hd
          rw [setSess_sess_self]
          exact Relation.ReflTransGen.single (Micro.wrote_err _ (by simp) hw)
        · rw [setSess_sess_of_ne _ _ _ _ hd]
    · exact absurd h (by simp)

/-! ## Runs -/

theorem run_cons (w : World) (e : Event) (es : List Event) (w2 : World)
    (h : run w (e :: es) = some w2) : ∃ w1, step w e = some w1 ∧ run w1 es = some w2 := by
  simp only [run] at h
  cases hs : step w e with
  | none => rw [hs] at h; exact absurd h (by simp)
  | some w1 => rw [hs] at h; exact ⟨w1, rfl, h⟩

theorem run_append (w : World) (es1 es2 : List Event) :
    run w (es1 ++ es2) = (run w es1).bind (fun w1 => run w1 es2) := by
  induction es1 generalizing w with
  | nil => rfl
  | cons e es ih =>
    simp only [List.cons_append, run]
    cases step w e with
    | none => rfl
    | some w1 => exact ih w1

theorem run_micros (w w1 : World) (evs : List Event) (d : Conn) (h : run w evs = some w1) :
    Micros true (w.sess d) (w1.sess d) := by
  induction evs generalizing w with
  | nil =>
    simp only [run] at h
    injection h with h
    subst h
    exact Relation.ReflTransGen.refl
  | cons e es ih =>
    obtain ⟨w2, hs, hr⟩ := run_cons _ _ _ _ h
    exact Relation.ReflTransGen.trans (micros_weaken (step_micros w w2 e d hs)) (ih w2 hr)

theorem run_micros_of_no_write_error (w w1 : World) (evs : List Event) (d : Conn)
    (h : run w evs = some w1) (hnf : ∀ e ∈ evs, e ≠ Event.on_write d true) :
    Micros false (w.sess d) (w1.sess d) := by
  induction evs generalizing w with
  | nil =>
    simp only [run] at h
    injection h with h
    subst h
    exact Relation.ReflTransGen.refl
  | cons e es ih =>
    obtain ⟨w2, hs, hr⟩ := run_cons _ _ _ _ h
    have h1 := step_micros w w2 e d hs
    have hne : e ≠ Event.on_write d true := hnf e (List.mem_cons_self _ _)
    rw [decide_eq_false hne] at h1
    exact Relation.ReflTransGen.trans h1 (ih w2 hr (fun e1 he1 => hnf e1 (List.mem_cons_of_mem _ he1)))

/-! ## The write loop (C2, C3) -/

theorem writeInv_micro {wf : Bool} (s s1 : ChatSession) (h : WriteInv s) (hm : Micro wf s s1) :
    WriteInv s1 := by
  obtain ⟨h1, h2⟩ := h
  cases hm with
  | send t => exact ⟨h1, h2⟩
  | accepted => exact ⟨h1, h2⟩
  | reading b => exact ⟨h1, h2⟩
  | posted t rest hq =>
    simp only [ChatSession.send_text_posted, WriteInv]
    cases hsq : s.send_q_ with
    | nil =>
      have hw : s.writing = 0 := by
        rcases Nat.le_one_iff_eq_zero_or_eq_one.mp h1 with h0 | h0
        · exact h0
        · exact absurd hsq (h2 h0)
      simp [ChatSession.do_write, hw]
    | cons p q =>
      simp only [List.cons_append, List.length_cons, add_left_eq_self, List.length_eq_zero,
        List.append_eq_nil, List.cons_ne_self, and_false, if_false]
      exact ⟨h1, fun _ => by simp⟩
  | wrote_ok hw =>
    have hw1 : s.writing = 1 := by omega
    simp only [ChatSession.on_write_ok, WriteInv]
    cases hsq : s.send_q_ with
    | nil => exact absurd hsq (h2 hw1)
    | cons p q =>
      cases q with
      | nil => simp [hw1]
      | cons p2 q2 => simp [ChatSession.do_write, hw1]
  | wrote_err _ hw =>
    simp only [WriteInv]
    omega

theorem logInv_micro {wf : Bool} (a b c : List String) (s s1 : ChatSession)
    (h : LogInv a b c s) (hm : Micro wf s s1) : LogInv a b c s1 := by
  obtain ⟨W, hw, hp, hs⟩ := h
  cases hm with
  | send t => exact ⟨W, hw, hp, by simp [ChatSession.send_text, hs]⟩
  | accepted => exact ⟨W, hw, hp, hs⟩
  | reading b => exact ⟨W, hw, hp, hs⟩
  | posted t rest hq =>
    simp only [ChatSession.send_text_posted, LogInv]
    cases hsq : s.send_q_ with
    | nil =>
      rw [hsq] at hp hs
      refine ⟨W ++ [t], ?_⟩
      simp [ChatSession.do_write, hw, hp, hs, hq]
    | cons p q =>
      rw [hsq] at hp hs
      refine ⟨W, ?_⟩
      simp [hw, hp, hs, hq]
  | wrote_ok hwr =>
    simp only [ChatSession.on_write_ok, LogInv]
    cases hsq : s.send_q_ with
    | nil =>
      rw [hsq] at hp hs
      refine ⟨W, ?_⟩
      simp at hp hs ⊢
      exact ⟨hw, hp, hs⟩
    | cons p q =>
      rw [hsq] at hp hs
      cases q with
      | nil =>
        refine ⟨W, ?_⟩
        simp at hp hs ⊢
        exact ⟨hw, hp, hs⟩
      | cons p2 q2 =>
        refine ⟨W ++ [p2], ?_⟩
        simp [ChatSession.do_write, hw, hp, hs]
  | wrote_err _ hwr => exact ⟨W, hw, hp, hs⟩

theorem drainInv_micro (s s1 : ChatSession) (h : DrainInv s)
    (hm : Micro false s s1) : DrainInv s1 := by
  cases hm with
  | send t => exact h
  | accepted => exact h
  | reading b => exact h
  | posted t rest hq =>
    simp only [ChatSession.send_text_posted, DrainInv]
    cases hsq : s.send_q_ with
    | nil => simp [ChatSession.do_write]
    | cons p q =>
      intro h0
      simp only [List.cons_append, List.length_cons, add_left_eq_self, List.length_eq_zero,
        List.append_eq_nil, List.cons_ne_self, and_false, if_false] at h0
      have := h h0
      rw [hsq] at this
      exact absurd this (by simp)
  | wrote_ok hwr =>
    simp only [ChatSession.on_write_ok, DrainInv]
    cases hsq : s.send_q_ with
    | nil => simp
    | cons p q =>
      cases q with
      | nil => simp
      | cons p2 q2 => simp [ChatSession.do_write]
  | wrote_err hf _ => exact absurd hf (by simp)

/-- Claim C2.  From any state in which session `c` has no write outstanding, every
sequence of events (calls of `send_text`, runs of posted lambdas, write
completions with or without error, and all other handlers, on any sessions)
leads to a state in which `c` has at most one `async_write` outstanding.  Since
`do_write` adds one to the count, it is never started while a write is
outstanding.  The content of the queue at the start plays no role. -/
theorem at_most_one_write_outstanding (w0 w : World) (c : Conn) (evs : List Event)
    (hw : (w0.sess c).writing = 0)
    (hrun : run w0 evs = some w) : (w.sess c).writing ≤ 1 := by
  have h0 : WriteInv (w0.sess c) := ⟨by omega, fun h1 => by omega⟩
  exact (micros_preserves writeInv_micro (run_micros w0 w evs c hrun) h0).1

theorem step_queue_event_sent (w w1 : World) (c : Conn) (e : Event)
    (he : Event.isQueueEvent c e = true) (h : step w e = some w1) :
    (w1.sess c).sent = (w.sess c).sent ++ enqueued c [e] := by
  cases e with
  | on_accept d ec => simp [Event.isQueueEvent] at he
  | on_read d r => simp [Event.isQueueEvent] at he
  | send_text d t =>
    simp only [Event.isQueueEvent, decide_eq_true_eq] at he
    subst he
    simp only [step] at h
    injection h with h
    subst h
    simp [enqueued, ChatSession.send_text]
  | posted d =>
    simp only [Event.isQueueEvent, decide_eq_true_eq] at he
    subst he
    simp only [step] at h
    split at h
    · exact absurd h (by simp)
    · injection h with h
      subst h
      simp only [setSess_sess_self, enqueued, List.append_nil, ChatSession.send_text_posted]
      split
      · simp only [ChatSession.do_write]
        split <;> rfl
      · rfl
  | on_write d ec =>
    simp only [Event.isQueueEvent, Bool.and_eq_true, decide_eq_true_eq, Bool.not_eq_true',
      ] at he
    obtain ⟨hd, hec⟩ := he
    subst hd
    subst hec
    simp only [step] at h
    split at h
    · injection h with h
      subst h
      simp only [World.on_write, Bool.false_eq_true, if_false, setSess_sess_self, enqueued,
        List.append_nil, ChatSession.on_write_ok]
      split
      · simp only [ChatSession.do_write]
        split <;> rfl
      · rfl
    · exact absurd h (by simp)

theorem enqueued_cons (c : Conn) (e : Event) (es : List Event) :
    enqueued c (e :: es) = enqueued c [e] ++ enqueued c es := by
  cases e with
  | send_text d t =>
    simp only [enqueued]
    split <;> simp
  | on_accept d ec => simp [enqueued]
  | on_read d r => simp [enqueued]
  | posted d => simp [enqueued]
  | on_write d ec => simp [enqueued]

theorem run_queue_events_sent (w w1 : World) (c : Conn) (evs : List Event)
    (hev : ∀ e ∈ evs, Event.isQueueEvent c e = true) (h : run w evs = some w1) :
    (w1.sess c).sent = (w.sess c).sent ++ enqueued c evs := by
  induction evs generalizing w with
  | nil =>
    simp only [run] at h
    injection h with h
    subst h
    simp [enqueued]
  | cons e es ih =>
    obtain ⟨w2, hs, hr⟩ := run_cons _ _ _ _ h
    rw [ih w2 (fun e1 he1 => hev e1 (List.mem_cons_of_mem _ he1)) hr,
      step_queue_event_sent w w2 c e (hev e (List.mem_cons_self _ _)) hs,
      enqueued_cons c e es, List.append_assoc]

theorem queue_event_ne_write_error (c : Conn) (e : Event)
    (he : Event.isQueueEvent c e = true) : e ≠ Event.on_write c true := by
  intro h
  subst h
  simp [Event.isQueueEvent] at he

/-- Claim C3.  Session `c` starts with an empty queue, no pending lambda and no
write outstanding; the events are calls of `send_text` on `c`, runs of its
posted lambdas and write completions without error, in any interleaving that
can occur.  Then in the state reached (hence in every intermediate state, a
run of a shorter such sequence) at most one write is outstanding, and the
texts handed to `async_write` since the start are an initial segment of the
texts enqueued, in enqueue order.  When every lambda has run and every write
has completed, the texts written are exactly the texts enqueued, as many and
in the same order, and the queue is empty. -/
theorem writes_carry_enqueued_texts_in_order (w0 w : World) (c : Conn) (evs : List Event)
    (hq : (w0.sess c).send_q_ = []) (hs : (w0.sess c).strand_q = [])
    (hw : (w0.sess c).writing = 0)
    (hev : ∀ e ∈ evs, Event.isQueueEvent c e = true)
    (hrun : run w0 evs = some w) :
    (w.sess c).writing ≤ 1 ∧
    (∃ W, (w.sess c).wire = (w0.sess c).wire ++ W ∧ W <+: enqueued c evs) ∧
    ((w.sess c).strand_q = [] → (w.sess c).writing = 0 →
      (w.sess c).wire = (w0.sess c).wire ++ enqueued c evs ∧
      ((w.sess c).wire.length = (w0.sess c).wire.length + (enqueued c evs).length) ∧
      (w.sess c).send_q_ = []) := by
  have hm := run_micros_of_no_write_error w0 w evs c hrun
    (fun e he => queue_event_ne_write_error c e (hev e he))
  have hj0 : WriteInv (w0.sess c) := ⟨by omega, fun h1 => by omega⟩
  have hd0 : DrainInv (w0.sess c) := fun _ => hq
  have hl0 : LogInv (w0.sess c).sent (w0.sess c).pushed (w0.sess c).wire (w0.sess c) :=
    ⟨[], by simp [hq, hs]⟩
  have hj := micros_preserves writeInv_micro hm hj0
  have hd := micros_preserves drainInv_micro hm hd0
  obtain ⟨W, hW1, _, hW3⟩ := micros_preserves (logInv_micro _ _ _) hm hl0
  have hsent := run_queue_events_sent w0 w c evs hev hrun
  rw [hsent, List.append_assoc, List.append_assoc] at hW3
  have hW4 := List.append_cancel_left hW3
  refine ⟨hj.1, ⟨W, hW1, ⟨_, hW4.symm⟩⟩, fun hsq hwr => ?_⟩
  have hq1 := hd hwr
  rw [hq1, hsq] at hW4
  simp only [List.tail_nil, List.append_nil] at hW4
  subst hW4
  exact ⟨hW1, by rw [hW1, List.length_append], hq1⟩

/-! ## The registry inside the server -/

theorem members_join (st : ChatState) (room r : String) (s : Conn) :
    (st.join room s).members r =
      if r = room then insert s (st.members room) else st.members r := by
  unfold ChatState.members ChatState.join
  by_cases h : r = room
  · subst h
    cases hm : st.rooms r <;> simp
  · simp [h]

theorem members_leave (st : ChatState) (room r : String) (s : Conn) :
    (st.leave room s).members r =
      if r = room then (st.members room).erase s else st.members r := by
  unfold ChatState.members ChatState.leave
  cases hm : st.rooms room with
  | none =>
    by_cases h : r = room
    · subst h; simp [hm]
    · simp [h]
  | some m =>
    by_cases he : m.erase s = ∅
    · by_cases h : r = room
      · subst h; simp [he]
      · simp [he, h]
    · by_cases h : r = room
      · subst h; simp [he]
      · simp [he, h]

theorem rooms_leave_of_ne (st : ChatState) (room r : String) (s : Conn) (h : r ≠ room) :
    (st.leave room s).rooms r = st.rooms r := by
  unfold ChatState.leave
  cases hm : st.rooms room with
  | none => rfl
  | some m =>
    by_cases he : m.erase s = ∅
    · simp [he, h]
    · simp [he, h]

theorem micro_room_name {wf : Bool} (s s1 : ChatSession) (hm : Micro wf s s1) :
    s1.room_ = s.room_ ∧ s1.name_ = s.name_ := by
  cases hm with
  | send t => exact ⟨rfl, rfl⟩
  | accepted => exact ⟨rfl, rfl⟩
  | reading b => exact ⟨rfl, rfl⟩
  | posted t rest hq =>
    simp only [ChatSession.send_text_posted]
    split
    · simp only [ChatSession.do_write]
      split <;> exact ⟨rfl, rfl⟩
    · exact ⟨rfl, rfl⟩
  | wrote_ok hw =>
    simp only [ChatSession.on_write_ok]
    split
    · simp only [ChatSession.do_write]
      split <;> exact ⟨rfl, rfl⟩
    · exact ⟨rfl, rfl⟩
  | wrote_err _ hw => exact ⟨rfl, rfl⟩

theorem micros_room_name {wf : Bool} (s s1 : ChatSession) (hm : Micros wf s s1) :
    s1.room_ = s.room_ ∧ s1.name_ = s.name_ := by
  induction hm with
  | refl => exact ⟨rfl, rfl⟩
  | tail _ hstep ih =>
    have := micro_room_name _ _ hstep
    exact ⟨this.1.trans ih.1, this.2.trans ih.2⟩

theorem micro_accepting_false {wf : Bool} (s s1 : ChatSession) (h : s.accepting = false)
    (hm : Micro wf s s1) : s1.accepting = false := by
  cases hm with
  | send t => exact h
  | accepted => rfl
  | reading b => exact h
  | posted t rest hq =>
    simp only [ChatSession.send_text_posted]
    split
    · simp only [ChatSession.do_write]
      split <;> exact h
    · exact h
  | wrote_ok hw =>
    simp only [ChatSession.on_write_ok]
    split
    · simp only [ChatSession.do_write]
      split <;> exact h
    · exact h
  | wrote_err _ hw => exact h

/-- The state of the registry after one event. -/
theorem step_state (w w1 : World) (e : Event) (h : step w e = some w1) :
    w1.state_ =
      match e with
      | .on_accept c false => w.state_.join (w.sess c).room_ c
      | .on_read c .closed => w.state_.leave (w.sess c).room_ c
      | .on_read c .error => w.state_.leave (w.sess c).room_ c
      | .on_write c true => w.state_.leave (w.sess c).room_ c
      | _ => w.state_ := by
  cases e with
  | on_accept c ec =>
    simp only [step] at h
    split at h
    · injection h with h
      subst h
      cases ec <;> simp [World.on_accept, World.do_read, World.broadcast_system]
    · exact absurd h (by simp)
  | on_read c r =>
    simp only [step] at h
    split at h
    · injection h with h
      subst h
      cases r <;>
        simp [World.on_read, World.on_close, World.do_read, World.broadcast_system,
          World.broadcast]
    · exact absurd h (by simp)
  | send_text c t =>
    simp only [step] at h
    injection h with h
    subst h
    rfl
  | posted c =>
    simp only [step] at h
    split at h
    · exact absurd h (by simp)
    · injection h with h
      subst h
      rfl
  | on_write c ec =>
    simp only [step] at h
    split at h
    · injection h with h
      subst h
      cases ec <;> simp [World.on_write, World.on_close, World.broadcast_system]
    · exact absurd h (by simp)

theorem regInv_step (w w1 : World) (e : Event) (hi : RegInv w) (h : step w e = some w1) :
    RegInv w1 := by
  intro r d hd
  have hm := step_micros w w1 e d h
  have hrn := (micros_room_name _ _ hm).1
  have hst := step_state w w1 e h
  have hold : d ∈ w.state_.members r → (w1.sess d).room_ = r ∧ (w1.sess d).accepting = false :=
    fun hmem => ⟨hrn.trans (hi r d hmem).1,
      micros_preserves micro_accepting_false hm (hi r d hmem).2⟩
  rw [hst] at hd
  cases e with
  | on_accept c ec =>
    cases ec with
    | true => exact hold hd
    | false =>
      simp only [members_join] at hd
      split at hd
      · rename_i hr
        rcases Finset.mem_insert.mp hd with hdc | hdm
        · subst hdc
          refine ⟨hrn.trans hr.symm, ?_⟩
          simp only [step] at h
          split at h
          · injection h with h
            subst h
            simp [World.on_accept, World.do_read, World.broadcast_system, World.for_each_send,
              World.setSess]
            split <;> rfl
          · exact absurd h (by simp)
        · exact hold (hr ▸ hdm)
      · exact hold hd
  | on_read c rr =>
    cases rr with
    | frame msg => exact hold hd
    | closed =>
      simp only [members_leave] at hd
      split at hd
      · rename_i hr
        exact hold (hr ▸ (Finset.mem_erase.mp hd).2)
      · exact hold hd
    | error =>
      simp only [members_leave] at hd
      split at hd
      · rename_i hr
        exact hold (hr ▸ (Finset.mem_erase.mp hd).2)
      · exact hold hd
  | send_text c t => exact hold hd
  | posted c => exact hold hd
  | on_write c ec =>
    cases ec with
    | false => exact hold hd
    | true =>
      simp only [members_leave] at hd
      split at hd
      · rename_i hr
        exact hold (hr ▸ (Finset.mem_erase.mp hd).2)
      · exact hold hd

theorem regInv_run (w w1 : World) (evs : List Event) (hi : RegInv w) (h : run w evs = some w1) :
    RegInv w1 := by
  induction evs generalizing w with
  | nil =>
    simp only [run] at h
    injection h with h
    subst h
    exact hi
  | cons e es ih =>
    obtain ⟨w2, hs, hr⟩ := run_cons _ _ _ _ h
    exact ih w2 (regInv_step w w2 e hi hs) hr

theorem regInv_init (targets : Conn → String) : RegInv (World.init targets) := by
  intro r d hd
  simp [World.init, ChatState.empty, ChatState.members] at hd

/-! ## Broadcast of a frame (C4, C5) -/

/-- What a successfully read frame does to the registry and to each session. -/
theorem step_frame (w w1 : World) (c : Conn) (text : String)
    (h : step w (Event.on_read c (ReadResult.frame text)) = some w1) (d : Conn) :
    w1.state_ = w.state_ ∧
    (w1.sess d).send_q_ = (w.sess d).send_q_ ∧
    (w1.sess d).pushed = (w.sess d).pushed ∧
    (w1.sess d).wire = (w.sess d).wire ∧
    (w1.sess d).writing = (w.sess d).writing ∧
    (d ∈ w.state_.members (w.sess c).room_ →
      (w1.sess d).sent = (w.sess d).sent ++ [(w.sess c).name_ ++ ": " ++ text] ∧
      (w1.sess d).strand_q = (w.sess d).strand_q ++ [(w.sess c).name_ ++ ": " ++ text]) ∧
    (d ∉ w.state_.members (w.sess c).room_ →
      (w1.sess d).sent = (w.sess d).sent ∧ (w1.sess d).strand_q = (w.sess d).strand_q) := by
  simp only [step] at h
  split at h
  · injection h with h
    subst h
    by_cases hd : d = c
    · subst hd
      by_cases hm : d ∈ w.state_.members (w.sess d).room_ <;>
        simp [World.on_read, World.broadcast, World.do_read, World.for_each_send, World.setSess,
          ChatSession.send_text, hm]
    · by_cases hm : d ∈ w.state_.members (w.sess c).room_ <;>
        simp [World.on_read, World.broadcast, World.do_read, World.for_each_send, World.setSess,
          ChatSession.send_text, hm, hd]
  · exact absurd h (by simp)

/-- Claim C4.  In any state, when session `c` reads a frame `text`: the registry is
unchanged; every member of the room of `c` (the sender too, when it is one) gets
exactly one `send_text`, of `name_ + ": " + text`; no other session gets any;
no queue and no write is touched by the handler itself; when the room has no
member nothing is enqueued anywhere, and when it has no entry it has none
afterwards. -/
theorem frame_is_broadcast_to_room_members (w w1 : World) (c : Conn) (text : String)
    (h : step w (Event.on_read c (ReadResult.frame text)) = some w1) :
    w1.state_ = w.state_ ∧
    (∀ d, d ∈ w.state_.members (w.sess c).room_ →
      (w1.sess d).sent = (w.sess d).sent ++ [(w.sess c).name_ ++ ": " ++ text] ∧
      (w1.sess d).strand_q = (w.sess d).strand_q ++ [(w.sess c).name_ ++ ": " ++ text]) ∧
    (∀ d, d ∉ w.state_.members (w.sess c).room_ →
      (w1.sess d).sent = (w.sess d).sent ∧ (w1.sess d).strand_q = (w.sess d).strand_q) ∧
    (∀ d, (w1.sess d).send_q_ = (w.sess d).send_q_ ∧ (w1.sess d).wire = (w.sess d).wire) ∧
    (w.state_.members (w.sess c).room_ = ∅ →
      ∀ d, (w1.sess d).sent = (w.sess d).sent ∧ (w1.sess d).strand_q = (w.sess d).strand_q) ∧
    (w.state_.rooms (w.sess c).room_ = none → w1.state_.rooms (w.sess c).room_ = none) := by
  refine ⟨(step_frame w w1 c text h c).1, fun d hd => (step_frame w w1 c text h d).2.2.2.2.2.1 hd,
    fun d hd => (step_frame w w1 c text h d).2.2.2.2.2.2 hd,
    fun d => ⟨(step_frame w w1 c text h d).2.1, (step_frame w w1 c text h d).2.2.2.1⟩,
    fun hempty d => (step_frame w w1 c text h d).2.2.2.2.2.2 ?_, fun hnone => ?_⟩
  · rw [hempty]
    exact Finset.not_mem_empty d
  · rw [(step_frame w w1 c text h c).1]
    exact hnone

/-- Claim C5.  In every state the server reaches from its start, by any events on
any sessions, a frame read by session `c` enqueues nothing on a session `d`
whose room key differs from the one of `c`: the logs and queues of `d` are
unchanged.  Moreover `d` is registered in no room but its own. -/
theorem chat_message_stays_in_its_room (targets : Conn → String) (evs : List Event)
    (w w1 : World) (c d : Conn) (text : String)
    (hrun : run (World.init targets) evs = some w)
    (h : step w (Event.on_read c (ReadResult.frame text)) = some w1)
    (hne : (w.sess c).room_ ≠ (w.sess d).room_) :
    (w1.sess d).sent = (w.sess d).sent ∧
    (w1.sess d).strand_q = (w.sess d).strand_q ∧
    (w1.sess d).send_q_ = (w.sess d).send_q_ ∧
    (w1.sess d).wire = (w.sess d).wire ∧
    (∀ r, d ∈ w.state_.members r → r = (w.sess d).room_) := by
  have hinv := regInv_run _ _ _ (regInv_init targets) hrun
  have hnm : d ∉ w.state_.members (w.sess c).room_ :=
    fun hm => hne (hinv _ _ hm).1.symm
  have hf := step_frame w w1 c text h d
  exact ⟨(hf.2.2.2.2.2.2 hnm).1, (hf.2.2.2.2.2.2 hnm).2, hf.2.1, hf.2.2.2.1,
    fun r hr => ((hinv r d hr).1).symm⟩

/-! ## Leaving and joining (C6, C9) -/

/-- Effect of `on_close` on the registry and on each session. -/
theorem on_close_effect (w : World) (c d : Conn) :
    (w.on_close c).state_ = w.state_.leave (w.sess c).room_ c ∧
    (w.on_close c).sess d =
      if d ∈ (w.state_.members (w.sess c).room_).erase c
      then (w.sess d).send_text (leave_notice w c) else w.sess d := by
  simp only [World.on_close, World.broadcast_system, World.for_each_send, members_leave, if_true,
    leave_notice, and_self]

/-- Effect of a successful `on_accept` on the registry and on each session. -/
theorem on_accept_effect (w : World) (c d : Conn) :
    (w.on_accept c false).state_ = w.state_.join (w.sess c).room_ c ∧
    (w.on_accept c false).sess d =
      if d = c then
        { (w.sess c).send_text (join_notice w c) with reading := true }
      else if d ∈ w.state_.members (w.sess c).room_
      then (w.sess d).send_text (join_notice w c) else w.sess d := by
  refine ⟨by simp [World.on_accept, World.do_read, World.broadcast_system], ?_⟩
  by_cases hd : d = c
  · subst hd
    simp [World.on_accept, World.do_read, World.broadcast_system, World.for_each_send,
      members_join, join_notice, World.setSess]
  · simp [World.on_accept, World.do_read, World.broadcast_system, World.for_each_send,
      members_join, join_notice, World.setSess, hd]

/-- What a read that ends in `closed` or in an error does. -/
theorem step_read_end (w w1 : World) (c : Conn) (r : ReadResult)
    (hr : r = ReadResult.closed ∨ r = ReadResult.error)
    (h : step w (Event.on_read c r) = some w1) (d : Conn) :
    w1.state_ = w.state_.leave (w.sess c).room_ c ∧
    (d ∈ (w.state_.members (w.sess c).room_).erase c →
      w1.sess d = (w.sess d).send_text (leave_notice w c)) ∧
    (d ∉ (w.state_.members (w.sess c).room_).erase c → d ≠ c → w1.sess d = w.sess d) ∧
    w1.sess c = { w.sess c with reading := false } := by
  simp only [step] at h
  split at h
  · injection h with h
    subst h
    have hoc : ∀ x, ((w.setSess c { w.sess c with reading := false }).on_read c r).sess x =
        ((w.setSess c { w.sess c with reading := false }).on_close c).sess x := by
      intro x
      rcases hr with hr | hr <;> subst hr <;> rfl
    have hst : ((w.setSess c { w.sess c with reading := false }).on_read c r).state_ =
        ((w.setSess c { w.sess c with reading := false }).on_close c).state_ := by
      rcases hr with hr | hr <;> subst hr <;> rfl
    rw [hst, hoc d, hoc c]
    have e1 := on_close_effect (w.setSess c { w.sess c with reading := false }) c d
    have e2 := on_close_effect (w.setSess c { w.sess c with reading := false }) c c
    simp only [setSess_sess_self, setSess_state, Finset.mem_erase, ne_eq, not_true_eq_false,
      false_and, if_false] at e1 e2
    refine ⟨e1.1, fun hd => ?_, fun hd hdc => ?_, e2.2⟩
    · have hdc : d ≠ c := (Finset.mem_erase.mp hd).1
      rw [e1.2, if_pos (Finset.mem_erase.mp hd), setSess_sess_of_ne _ _ _ _ hdc]
      simp [leave_notice]
    · rw [e1.2, if_neg (fun hh => hd (Finset.mem_erase.mpr hh)), setSess_sess_of_ne _ _ _ _ hdc]
  · exact absurd h (by simp)

/-- Claim C6.  In every reachable state in which session `c` is a member of its
room, a read of `c` that ends with `closed` or with an error removes `c` from the
member set of its room (the entry disappears when the set becomes empty), gives
every remaining member exactly one `send_text`, of the leave notice of `c`,
gives `c` itself none, leaves the entry of every other room as it was, and
leaves every session of another room, and every session that is not a member,
wholly unchanged. -/
theorem read_failure_deregisters_and_notifies (targets : Conn → String) (evs : List Event)
    (w w1 : World) (c : Conn) (r : ReadResult)
    (hrun : run (World.init targets) evs = some w)
    (hr : r = ReadResult.closed ∨ r = ReadResult.error)
    (hmem : c ∈ w.state_.members (w.sess c).room_)
    (h : step w (Event.on_read c r) = some w1) :
    w1.state_.members (w.sess c).room_ = (w.state_.members (w.sess c).room_).erase c ∧
    w.state_.members (w.sess c).room_ = insert c (w1.state_.members (w.sess c).room_) ∧
    c ∉ w1.state_.members (w.sess c).room_ ∧
    (w1.state_.members (w.sess c).room_ = ∅ → w1.state_.rooms (w.sess c).room_ = none) ∧
    (∀ d, d ∈ w1.state_.members (w.sess c).room_ →
      (w1.sess d).sent = (w.sess d).sent ++ ["[系统] " ++ ((w.sess c).name_ ++ " 离开了房间")] ∧
      (w1.sess d).strand_q =
        (w.sess d).strand_q ++ ["[系统] " ++ ((w.sess c).name_ ++ " 离开了房间")] ∧
      (w1.sess d).send_q_ = (w.sess d).send_q_) ∧
    ((w1.sess c).sent = (w.sess c).sent ∧ (w1.sess c).strand_q = (w.sess c).strand_q ∧
      (w1.sess c).send_q_ = (w.sess c).send_q_) ∧
    (∀ r2, r2 ≠ (w.sess c).room_ → w1.state_.rooms r2 = w.state_.rooms r2) ∧
    (∀ d, (w.sess d).room_ ≠ (w.sess c).room_ → w1.sess d = w.sess d) ∧
    (∀ d, d ∉ w.state_.members (w.sess c).room_ → d ≠ c → w1.sess d = w.sess d) := by
  have hinv := regInv_run _ _ _ (regInv_init targets) hrun
  have hst := (step_read_end w w1 c r hr h c).1
  have hmem1 : w1.state_.members (w.sess c).room_ = (w.state_.members (w.sess c).room_).erase c := by
    rw [hst, members_leave, if_pos rfl]
  refine ⟨hmem1, ?_, ?_, ?_, ?_, ?_, ?_, ?_, ?_⟩
  · rw [hmem1, Finset.insert_erase hmem]
  · rw [hmem1]; exact Finset.not_mem_erase _ _
  · intro hempty
    rw [hmem1] at hempty
    rw [hst]
    unfold ChatState.leave
    unfold ChatState.members at hempty
    cases hm : w.state_.rooms (w.sess c).room_ with
    | none => simp [hm]
    | some m =>
      rw [hm] at hempty
      simp only at hempty
      simp [hempty]
  · intro d hd
    rw [hmem1] at hd
    rw [(step_read_end w w1 c r hr h d).2.1 hd]
    simp [ChatSession.send_text, leave_notice]
  · rw [(step_read_end w w1 c r hr h c).2.2.2]
    exact ⟨rfl, rfl, rfl⟩
  · intro r2 hr2
    rw [hst]
    exact rooms_leave_of_ne _ _ _ _ hr2
  · intro d hd
    have hdc : d ≠ c := fun hh => hd (hh ▸ rfl)
    have hnm : d ∉ (w.state_.members (w.sess c).room_).erase c :=
      fun hh => hd (hinv _ _ (Finset.mem_erase.mp hh).2).1
    exact (step_read_end w w1 c r hr h d).2.2.1 hnm hdc
  · intro d hd hdc
    exact (step_read_end w w1 c r hr h d).2.2.1 (fun hh => hd (Finset.mem_erase.mp hh).2) hdc

/-- What a successful upgrade does. -/
theorem step_accept (w w1 : World) (c : Conn)
    (h : step w (Event.on_accept c false) = some w1) (d : Conn) :
    w1.state_ = w.state_.join (w.sess c).room_ c ∧
    (d ∈ insert c (w.state_.members (w.sess c).room_) →
      (w1.sess d).sent = (w.sess d).sent ++ [join_notice w c] ∧
      (w1.sess d).strand_q = (w.sess d).strand_q ++ [join_notice w c]) ∧
    (d ∉ insert c (w.state_.members (w.sess c).room_) → w1.sess d = w.sess d) := by
  simp only [step] at h
  split at h
  · injection h with h
    subst h
    have e := on_accept_effect (w.setSess c { w.sess c with accepting := false }) c d
    simp only [setSess_sess_self, setSess_state] at e
    have hn : join_notice (w.setSess c { w.sess c with accepting := false }) c =
        join_notice w c := by
      simp [join_notice]
    rw [hn] at e
    refine ⟨e.1, fun hd => ?_, fun hd => ?_⟩
    · rw [e.2]
      by_cases hdc : d = c
      · subst hdc
        simp [ChatSession.send_text]
      · rw [if_neg hdc, setSess_sess_of_ne _ _ _ _ hdc]
        have hm : d ∈ w.state_.members (w.sess c).room_ := by
          rcases Finset.mem_insert.mp hd with h1 | h1
          · exact absurd h1 hdc
          · exact h1
        rw [if_pos hm]
        simp [ChatSession.send_text]
    · rw [e.2]
      have hdc : d ≠ c := fun hh => hd (hh ▸ Finset.mem_insert_self _ _)
      have hm : d ∉ w.state_.members (w.sess c).room_ :=
        fun hh => hd (Finset.mem_insert_of_mem hh)
      rw [if_neg hdc, if_neg hm, setSess_sess_of_ne _ _ _ _ hdc]
  · exact absurd h (by simp)

/-- Claim C9, as amended.  When the upgrade of session `c` completes without error,
`c` is added to the member set of its room, and every member of that room, `c`
included, gets exactly one `send_text`, of the text
`"[系统] " + name_ + " 加入了房间"`; sessions outside the room are unchanged. -/
theorem join_notice_is_the_source_text (w w1 : World) (c : Conn)
    (h : step w (Event.on_accept c false) = some w1) :
    w1.state_.members (w.sess c).room_ = insert c (w.state_.members (w.sess c).room_) ∧
    (∀ d, d ∈ w1.state_.members (w.sess c).room_ →
      (w1.sess d).sent = (w.sess d).sent ++ ["[系统] " ++ ((w.sess c).name_ ++ " 加入了房间")] ∧
      (w1.sess d).strand_q =
        (w.sess d).strand_q ++ ["[系统] " ++ ((w.sess c).name_ ++ " 加入了房间")]) ∧
    (∀ d, d ∉ w1.state_.members (w.sess c).room_ → w1.sess d = w.sess d) := by
  have hm : w1.state_.members (w.sess c).room_ = insert c (w.state_.members (w.sess c).room_) := by
    rw [(step_accept w w1 c h c).1, members_join, if_pos rfl]
  refine ⟨hm, fun d hd => ?_, fun d hd => ?_⟩
  · rw [hm] at hd
    exact (step_accept w w1 c h d).2.1 hd
  · rw [hm] at hd
    exact (step_accept w w1 c h d).2.2 hd

/-! ## After a failed write (C7) -/

/-- What a failed write completion does. -/
theorem step_write_error (w w1 : World) (c : Conn)
    (h : step w (Event.on_write c true) = some w1) (d : Conn) :
    0 < (w.sess c).writing ∧
    w1.state_ = w.state_.leave (w.sess c).room_ c ∧
    (d ∈ (w.state_.members (w.sess c).room_).erase c →
      w1.sess d = (w.sess d).send_text (leave_notice w c)) ∧
    (d ∉ (w.state_.members (w.sess c).room_).erase c → d ≠ c → w1.sess d = w.sess d) ∧
    w1.sess c = { w.sess c with writing := (w.sess c).writing - 1 } := by
  simp only [step] at h
  split at h
  · rename_i hw
    injection h with h
    subst h
    simp only [World.on_write, if_true]
    have e1 := on_close_effect
      (w.setSess c { w.sess c with writing := (w.sess c).writing - 1 }) c d
    have e2 := on_close_effect
      (w.setSess c { w.sess c with writing := (w.sess c).writing - 1 }) c c
    simp only [setSess_sess_self, setSess_state, Finset.mem_erase, ne_eq, not_true_eq_false,
      false_and, if_false] at e1 e2
    refine ⟨hw, e1.1, fun hd => ?_, fun hd hdc => ?_, e2.2⟩
    · have hdc : d ≠ c := (Finset.mem_erase.mp hd).1
      rw [e1.2, if_pos (Finset.mem_erase.mp hd), setSess_sess_of_ne _ _ _ _ hdc]
      simp [leave_notice]
    · rw [e1.2, if_neg (fun hh => hd (Finset.mem_erase.mpr hh)), setSess_sess_of_ne _ _ _ _ hdc]
  · exact absurd h (by simp)

theorem gone_step (c : Conn) (w w1 : World) (e : Event) (hg : Gone c w)
    (h : step w e = some w1) : Gone c w1 := by
  refine ⟨micros_preserves micro_accepting_false (step_micros w w1 e c h) hg.1, fun r hr => ?_⟩
  rw [step_state w w1 e h] at hr
  cases e with
  | on_accept c2 ec =>
    cases ec with
    | true => exact hg.2 r hr
    | false =>
      simp only [members_join] at hr
      split at hr
      · rcases Finset.mem_insert.mp hr with hcc | hm
        · subst hcc
          simp only [step] at h
          split at h
          · rename_i hacc
            rw [hg.1] at hacc
            exact absurd hacc (by simp)
          · exact absurd h (by simp)
        · exact hg.2 _ hm
      · exact hg.2 r hr
  | on_read c2 rr =>
    cases rr with
    | frame msg => exact hg.2 r hr
    | closed =>
      simp only [members_leave] at hr
      split at hr
      · exact hg.2 _ (Finset.mem_erase.mp hr).2
      · exact hg.2 r hr
    | error =>
      simp only [members_leave] at hr
      split at hr
      · exact hg.2 _ (Finset.mem_erase.mp hr).2
      · exact hg.2 r hr
  | send_text c2 t => exact hg.2 r hr
  | posted c2 => exact hg.2 r hr
  | on_write c2 ec =>
    cases ec with
    | false => exact hg.2 r hr
    | true =>
      simp only [members_leave] at hr
      split at hr
      · exact hg.2 _ (Finset.mem_erase.mp hr).2
      · exact hg.2 r hr

theorem gone_run (c : Conn) (w w1 : World) (evs : List Event) (hg : Gone c w)
    (h : run w evs = some w1) : Gone c w1 := by
  induction evs generalizing w with
  | nil =>
    simp only [run] at h
    injection h with h
    subst h
    exact hg
  | cons e es ih =>
    obtain ⟨w2, hs, hr⟩ := run_cons _ _ _ _ h
    exact ih w2 (gone_step c w w2 e hg hs) hr

/-- Claim C7, as amended.  In every reachable state in which session `c` is a member
of its room, handling a failed write completion of `c` removes `c` from the
registry and enqueues its leave notice on each remaining member of its room.
After any further events, a later read completion of `c` (a frame, `closed`
or an error) enqueues nothing on `c` itself, which is then a member of no
room, and nothing on any session that is not at that moment a member of the
room of `c`. -/
theorem write_failure_deregisters_later_reads_stay_in_room (targets : Conn → String)
    (evs : List Event) (w w1 : World) (c : Conn)
    (hrun : run (World.init targets) evs = some w)
    (hmem : c ∈ w.state_.members (w.sess c).room_)
    (h : step w (Event.on_write c true) = some w1) :
    (w.state_.members (w.sess c).room_ = insert c (w1.state_.members (w.sess c).room_) ∧
      ∀ r, c ∉ w1.state_.members r) ∧
    (∀ d, d ∈ w1.state_.members (w.sess c).room_ →
      (w1.sess d).sent = (w.sess d).sent ++ ["[系统] " ++ ((w.sess c).name_ ++ " 离开了房间")] ∧
      (w1.sess d).strand_q =
        (w.sess d).strand_q ++ ["[系统] " ++ ((w.sess c).name_ ++ " 离开了房间")]) ∧
    (∀ evs2 w2 r w3, run w1 evs2 = some w2 → step w2 (Event.on_read c r) = some w3 →
      (∀ r2, c ∉ w2.state_.members r2) ∧
      ((w3.sess c).sent = (w2.sess c).sent ∧ (w3.sess c).strand_q = (w2.sess c).strand_q ∧
        (w3.sess c).send_q_ = (w2.sess c).send_q_) ∧
      (∀ d, d ∉ w2.state_.members (w.sess c).room_ →
        (w3.sess d).sent = (w2.sess d).sent ∧ (w3.sess d).strand_q = (w2.sess d).strand_q ∧
        (w3.sess d).send_q_ = (w2.sess d).send_q_)) := by
  have hinv := regInv_run _ _ _ (regInv_init targets) hrun
  have hs := step_write_error w w1 c h
  have hst := (hs c).2.1
  have hm1 : w1.state_.members (w.sess c).room_ = (w.state_.members (w.sess c).room_).erase c := by
    rw [hst, members_leave, if_pos rfl]
  have hc1 : w1.sess c = { w.sess c with writing := (w.sess c).writing - 1 } := (hs c).2.2.2.2
  have hgone : Gone c w1 := by
    refine ⟨?_, fun r hr => ?_⟩
    · rw [hc1]; exact (hinv _ _ hmem).2
    · rw [hst, members_leave] at hr
      split at hr
      · exact (Finset.mem_erase.mp hr).1 rfl
      · rename_i hne
        exact hne (hinv _ _ hr).1.symm
  refine ⟨⟨?_, hgone.2⟩, fun d hd => ?_, fun evs2 w2 r w3 hrun2 h3 => ?_⟩
  · rw [hm1, Finset.insert_erase hmem]
  · rw [hm1] at hd
    rw [(hs d).2.2.1 hd]
    simp [ChatSession.send_text, leave_notice]
  · have hg2 := gone_run c w1 w2 evs2 hgone hrun2
    have hrn : (w2.sess c).room_ = (w.sess c).room_ := by
      have := (micros_room_name _ _ (run_micros w1 w2 evs2 c hrun2)).1
      rw [hc1] at this
      exact this
    have hall : ∀ d, d ∉ w2.state_.members (w.sess c).room_ →
        (w3.sess d).sent = (w2.sess d).sent ∧ (w3.sess d).strand_q = (w2.sess d).strand_q ∧
        (w3.sess d).send_q_ = (w2.sess d).send_q_ := by
      intro d hd
      rw [← hrn] at hd
      cases r with
      | frame text =>
        have hf := step_frame w2 w3 c text h3 d
        exact ⟨(hf.2.2.2.2.2.2 hd).1, (hf.2.2.2.2.2.2 hd).2, hf.2.1⟩
      | closed =>
        have he := step_read_end w2 w3 c ReadResult.closed (Or.inl rfl) h3 d
        by_cases hdc : d = c
        · subst hdc
          rw [he.2.2.2]
          exact ⟨rfl, rfl, rfl⟩
        · rw [he.2.2.1 (fun hh => hd (Finset.mem_erase.mp hh).2) hdc]
          exact ⟨rfl, rfl, rfl⟩
      | error =>
        have he := step_read_end w2 w3 c ReadResult.error (Or.inr rfl) h3 d
        by_cases hdc : d = c
        · subst hdc
          rw [he.2.2.2]
          exact ⟨rfl, rfl, rfl⟩
        · rw [he.2.2.1 (fun hh => hd (Finset.mem_erase.mp hh).2) hdc]
          exact ⟨rfl, rfl, rfl⟩
    exact ⟨hg2.2, hall c (hg2.2 _), hall⟩

/-! ## Order of delivery (C8) -/

theorem micro_sent_grows {wf : Bool} (s s1 : ChatSession) (hm : Micro wf s s1) :
    s.sent <+: s1.sent := by
  cases hm with
  | send t => exact ⟨[t], rfl⟩
  | accepted => exact List.prefix_refl _
  | reading b => exact List.prefix_refl _
  | posted t rest hq =>
    simp only [ChatSession.send_text_posted]
    split
    · simp only [ChatSession.do_write]
      split <;> exact List.prefix_refl _
    · exact List.prefix_refl _
  | wrote_ok hw =>
    simp only [ChatSession.on_write_ok]
    split
    · simp only [ChatSession.do_write]
      split <;> exact List.prefix_refl _
    · exact List.prefix_refl _
  | wrote_err _ hw => exact List.prefix_refl _

theorem micros_sent_grows {wf : Bool} (s s1 : ChatSession) (hm : Micros wf s s1) :
    s.sent <+: s1.sent := by
  induction hm with
  | refl => exact List.prefix_refl _
  | tail _ hstep ih => exact List.IsPrefix.trans ih (micro_sent_grows _ _ hstep)

theorem logInv_init (targets : Conn → String) (c : Conn) :
    LogInv [] [] [] ((World.init targets).sess c) :=
  ⟨[], by simp [World.init, ChatSession.run]⟩

theorem nth_of_initial {l1 l2 : List String} (h : l1 <+: l2) (k : Nat) (p : String)
    (hk : l1[k]? = some p) : l2[k]? = some p := by
  obtain ⟨t, rfl⟩ := h
  have hlt : k < l1.length := by
    by_contra hge
    rw [List.getElem?_eq_none (Nat.le_of_not_lt hge)] at hk
    exact absurd hk (by simp)
  rw [List.getElem?_append_left hlt]
  exact hk

theorem nth_in_initial {l1 l2 : List String} (h : l1 <+: l2) (k : Nat) (p q : String)
    (hk : l1[k]? = some p) (h2 : l2[k]? = some q) : p = q := by
  have := nth_of_initial h k p hk
  rw [this] at h2
  exact Option.some.inj h2

theorem nth_initial_earlier {l1 l2 : List String} (h : l1 <+: l2) (j k : Nat) (p q : String)
    (hjk : j < k) (hk : l1[k]? = some p) (hj : l2[j]? = some q) : l1[j]? = some q := by
  obtain ⟨t, rfl⟩ := h
  have hlt : k < l1.length := by
    by_contra hge
    rw [List.getElem?_eq_none (Nat.le_of_not_lt hge)] at hk
    exact absurd hk (by simp)
  rw [List.getElem?_append_left (by omega)] at hj
  exact hj

/-- Claim C8.  Session `c` reads frame `m1` and later frame `m2`; session `d` is a
member of the room of `c` at both moments.  The `send_text` call for `m1` takes
position `k1`, the one for `m2` position `k2`, in the list of texts sent to `d`,
with `k1 < k2`.  In any later state: whenever position `k2` of the texts pushed
on the queue of `d` is filled, it holds the payload of `m2` and position `k1`
holds the payload of `m1`; the same for the texts handed to `async_write`.
Both lists only grow at their end, so the payload of `m1` is pushed, and
written, before the payload of `m2`.  When no write of `d` has failed and `d`
is idle, everything sent to `d` has been written. -/
theorem same_sender_frames_keep_their_order (targets : Conn → String)
    (evs1 evs2 evs3 : List Event) (w1 w1a w2 w2a w3 : World) (c d : Conn) (m1 m2 : String)
    (h1 : run (World.init targets) evs1 = some w1)
    (hs1 : step w1 (Event.on_read c (ReadResult.frame m1)) = some w1a)
    (h2 : run w1a evs2 = some w2)
    (hs2 : step w2 (Event.on_read c (ReadResult.frame m2)) = some w2a)
    (h3 : run w2a evs3 = some w3)
    (hd1 : d ∈ w1.state_.members (w1.sess c).room_)
    (hd2 : d ∈ w2.state_.members (w2.sess c).room_) :
    (w1.sess d).sent.length < (w2.sess d).sent.length ∧
    (w3.sess d).sent[(w1.sess d).sent.length]? = some ((w1.sess c).name_ ++ ": " ++ m1) ∧
    (w3.sess d).sent[(w2.sess d).sent.length]? = some ((w1.sess c).name_ ++ ": " ++ m2) ∧
    (∀ p, (w3.sess d).pushed[(w2.sess d).sent.length]? = some p →
      p = (w1.sess c).name_ ++ ": " ++ m2 ∧
      (w3.sess d).pushed[(w1.sess d).sent.length]? = some ((w1.sess c).name_ ++ ": " ++ m1)) ∧
    (∀ p, (w3.sess d).wire[(w2.sess d).sent.length]? = some p →
      p = (w1.sess c).name_ ++ ": " ++ m2 ∧
      (w3.sess d).wire[(w1.sess d).sent.length]? = some ((w1.sess c).name_ ++ ": " ++ m1)) ∧
    ((∀ e ∈ evs1 ++ evs2 ++ evs3, e ≠ Event.on_write d true) →
      (w3.sess d).strand_q = [] → (w3.sess d).writing = 0 →
      (w3.sess d).wire = (w3.sess d).sent) := by
  -- the whole run, from the start to `w3`
  have hall : run (World.init targets)
      (evs1 ++ (Event.on_read c (ReadResult.frame m1) :: evs2) ++
        (Event.on_read c (ReadResult.frame m2) :: evs3)) = some w3 := by
    simp [run_append, run, h1, hs1, h2, hs2, h3]
  have hmic := run_micros _ w3 _ d hall
  obtain ⟨W, hW1, hW2, hW3⟩ := micros_preserves (logInv_micro [] [] []) hmic (logInv_init targets d)
  simp only [List.nil_append] at hW1 hW2 hW3
  have hps : (w3.sess d).pushed <+: (w3.sess d).sent := ⟨(w3.sess d).strand_q, by rw [hW2, hW3]⟩
  have hwp : (w3.sess d).wire <+: (w3.sess d).pushed := ⟨(w3.sess d).send_q_.tail, by rw [hW1, hW2]⟩
  have hws : (w3.sess d).wire <+: (w3.sess d).sent := List.IsPrefix.trans hwp hps
  -- the two sends
  have hname : (w2.sess c).name_ = (w1.sess c).name_ := by
    have ha := (micros_room_name _ _ (step_micros w1 w1a _ c hs1)).2
    have hb := (micros_room_name _ _ (run_micros w1a w2 evs2 c h2)).2
    exact hb.trans ha
  have e1 := ((step_frame w1 w1a c m1 hs1 d).2.2.2.2.2.1 hd1).1
  have e2 := ((step_frame w2 w2a c m2 hs2 d).2.2.2.2.2.1 hd2).1
  rw [hname] at e2
  have g12 : (w1a.sess d).sent <+: (w2.sess d).sent :=
    micros_sent_grows _ _ (run_micros w1a w2 evs2 d h2)
  have g23 : (w2a.sess d).sent <+: (w3.sess d).sent :=
    micros_sent_grows _ _ (run_micros w2a w3 evs3 d h3)
  have g2 : (w2.sess d).sent <+: (w2a.sess d).sent := ⟨_, e2.symm⟩
  have k1a : (w1a.sess d).sent[(w1.sess d).sent.length]? =
      some ((w1.sess c).name_ ++ ": " ++ m1) := by
    rw [e1]; simp
  have k2a : (w2a.sess d).sent[(w2.sess d).sent.length]? =
      some ((w1.sess c).name_ ++ ": " ++ m2) := by
    rw [e2]; simp
  have hlt : (w1.sess d).sent.length < (w2.sess d).sent.length := by
    have := List.IsPrefix.length_le g12
    rw [e1, List.length_append] at this
    simp at this
    omega
  have s1 : (w3.sess d).sent[(w1.sess d).sent.length]? =
      some ((w1.sess c).name_ ++ ": " ++ m1) :=
    nth_of_initial g23 _ _ (nth_of_initial g2 _ _ (nth_of_initial g12 _ _ k1a))
  have s2 : (w3.sess d).sent[(w2.sess d).sent.length]? =
      some ((w1.sess c).name_ ++ ": " ++ m2) :=
    nth_of_initial g23 _ _ k2a
  refine ⟨hlt, s1, s2, fun p hp => ?_, fun p hp => ?_, fun hnf hsq hwr => ?_⟩
  · exact ⟨nth_in_initial hps _ _ _ hp s2, nth_initial_earlier hps _ _ _ _ hlt hp s1⟩
  · exact ⟨nth_in_initial hws _ _ _ hp s2, nth_initial_earlier hws _ _ _ _ hlt hp s1⟩
  · have hnf2 : ∀ e ∈ evs1 ++ (Event.on_read c (ReadResult.frame m1) :: evs2) ++
        (Event.on_read c (ReadResult.frame m2) :: evs3), e ≠ Event.on_write d true := by
      intro e he
      simp only [List.mem_append, List.mem_cons] at he
      rcases he with (he | he | he) | he | he
      · exact hnf e (by simp [he])
      · subst he; simp
      · exact hnf e (by simp [he])
      · subst he; simp
      · exact hnf e (by simp [he])
    have hmf := run_micros_of_no_write_error _ w3 _ d hall hnf2
    have hdr : DrainInv ((World.init targets).sess d) := fun _ => by
      simp [World.init, ChatSession.run]
    have hq := micros_preserves drainInv_micro hmf hdr hwr
    rw [hW1, hW3, hq, hsq]
    simp

/-! ## Room and name of a session (C10) -/

/-- The registry theorem on five calls: a repeated join and two leaves. -/
theorem registry_equals_reference_model_witness :
    (ChatState.empty.applyAll demo_ops).rooms "a" = some {2} ∧
    (ChatState.empty.applyAll demo_ops).rooms "b" = none ∧
    lastCallIsJoin "a" 2 demo_ops = true ∧
    lastCallIsJoin "a" 1 demo_ops = false ∧
    (ChatState.empty.applyAll demo_ops).join "a" 2 = ChatState.empty.applyAll demo_ops ∧
    (ChatState.empty.applyAll demo_ops).leave "a" 1 = ChatState.empty.applyAll demo_ops :=
  ⟨by decide, by decide, by decide, by decide,
    (registry_equals_reference_model demo_ops "a").2.1 2 (by decide),
    (registry_equals_reference_model demo_ops "a").2.2 1 (by decide)⟩

/-- After Bob is accepted and his posted lambda has run, one write is outstanding
on his session, not more. -/
theorem at_most_one_write_outstanding_witness :
    (demo.sess 1).writing = 0 ∧
    run demo (demo_joined ++ [Event.posted 1]) =
      some (demo_after (demo_joined ++ [Event.posted 1])) ∧
    ((demo_after (demo_joined ++ [Event.posted 1])).sess 1).writing = 1 ∧
    ((demo_after (demo_joined ++ [Event.posted 1])).sess 1).writing ≤ 1 :=
  ⟨by decide, rfl, by decide,
    at_most_one_write_outstanding demo (demo_after (demo_joined ++ [Event.posted 1])) 1
      (demo_joined ++ [Event.posted 1]) (by decide) rfl⟩

/-- Two texts enqueued on an idle session are written in the order `a`, `b`. -/
theorem writes_carry_enqueued_texts_in_order_witness :
    enqueued 3 demo_queue = ["a", "b"] ∧
    ((demo_after demo_queue).sess 3).wire = ["a", "b"] ∧
    ((demo_after demo_queue).sess 3).send_q_ = [] ∧
    ((demo_after demo_queue).sess 3).wire = (demo.sess 3).wire ++ enqueued 3 demo_queue :=
  ⟨by decide, by decide, by decide,
    ((writes_carry_enqueued_texts_in_order demo (demo_after demo_queue) 3 demo_queue
      (by decide) (by decide) (by decide) (by decide) rfl).2.2 (by decide) (by decide)).1⟩

/-- A frame of Alice reaches Bob, who shares her room, and not Carol. -/
theorem frame_is_broadcast_to_room_members_witness :
    ((demo_after demo_joined).sess 0).room_ = "r1" ∧
    (demo_after demo_joined).state_.members "r1" = {0, 1} ∧
    ((demo_after (demo_joined ++ [Event.on_read 0 (ReadResult.frame "hi")])).sess 1).sent =
      ["[系统] Bob 加入了房间", "Alice: hi"] ∧
    ((demo_after (demo_joined ++ [Event.on_read 0 (ReadResult.frame "hi")])).sess 2).sent = [] ∧
    (demo_after (demo_joined ++ [Event.on_read 0 (ReadResult.frame "hi")])).state_ =
      (demo_after demo_joined).state_ :=
  ⟨by decide, by decide, by decide, by decide,
    (frame_is_broadcast_to_room_members (demo_after demo_joined)
      (demo_after (demo_joined ++ [Event.on_read 0 (ReadResult.frame "hi")])) 0 "hi" rfl).1⟩

/-- Carol sits in `lobby`: a frame of Alice, in `r1`, leaves her log as it was. -/
theorem chat_message_stays_in_its_room_witness :
    ((demo_after (demo_joined ++ [Event.on_accept 2 false])).sess 0).room_ = "r1" ∧
    ((demo_after (demo_joined ++ [Event.on_accept 2 false])).sess 2).room_ = "lobby" ∧
    ((demo_after (demo_joined ++
        [Event.on_accept 2 false, Event.on_read 0 (ReadResult.frame "hi")])).sess 2).sent =
      ((demo_after (demo_joined ++ [Event.on_accept 2 false])).sess 2).sent :=
  ⟨by decide, by decide,
    (chat_message_stays_in_its_room demo_targets (demo_joined ++ [Event.on_accept 2 false])
      (demo_after (demo_joined ++ [Event.on_accept 2 false]))
      (demo_after (demo_joined ++
        [Event.on_accept 2 false, Event.on_read 0 (ReadResult.frame "hi")]))
      0 2 "hi" rfl rfl (by decide)).1⟩

/-- Bob is closed by his peer: Alice gets the leave notice, Bob does not, and the
room keeps Alice only. -/
theorem read_failure_deregisters_and_notifies_witness :
    (demo_after demo_joined).state_.members "r1" = {0, 1} ∧
    ((demo_after (demo_joined ++ [Event.on_read 1 ReadResult.closed])).sess 0).sent =
      ["[系统] Alice 加入了房间", "[系统] Bob 加入了房间", "[系统] Bob 离开了房间"] ∧
    ((demo_after (demo_joined ++ [Event.on_read 1 ReadResult.closed])).sess 1).sent =
      ["[系统] Bob 加入了房间"] ∧
    (demo_after (demo_joined ++ [Event.on_read 1 ReadResult.closed])).state_.members
        ((demo_after demo_joined).sess 1).room_ =
      ((demo_after demo_joined).state_.members ((demo_after demo_joined).sess 1).room_).erase 1 :=
  ⟨by decide, by decide, by decide,
    (read_failure_deregisters_and_notifies demo_targets demo_joined (demo_after demo_joined)
      (demo_after (demo_joined ++ [Event.on_read 1 ReadResult.closed])) 1 ReadResult.closed
      rfl (Or.inl rfl) (by decide) rfl).1⟩

/-- Counterexample to C7 as stated.  Bob, joined to `r1` with Alice, has a write
fail: he is deregistered and Alice gets his leave notice, while his read is
still outstanding.  A frame he reads afterwards is enqueued on Alice, and a
read error afterwards enqueues his leave notice on Alice a second time. -/
theorem session_is_not_terminal_after_write_failure :
    (run demo demo_write_failed).map
        (fun w => ((w.sess 0).sent, (w.sess 1).reading, decide (1 ∈ w.state_.members "r1"))) =
      some (["[系统] Alice 加入了房间", "[系统] Bob 加入了房间", "[系统] Bob 离开了房间"], true,
        false) ∧
    (run demo (demo_write_failed ++ [Event.on_read 1 (ReadResult.frame "hi")])).map
        (fun w => (w.sess 0).sent) =
      some ["[系统] Alice 加入了房间", "[系统] Bob 加入了房间", "[系统] Bob 离开了房间", "Bob: hi"] ∧
    (run demo (demo_write_failed ++ [Event.on_read 1 ReadResult.error])).map
        (fun w => (w.sess 0).sent) =
      some ["[系统] Alice 加入了房间", "[系统] Bob 加入了房间", "[系统] Bob 离开了房间",
        "[系统] Bob 离开了房间"] :=
  ⟨by decide, by decide, by decide⟩

/-- The failed write of Bob takes him, and only him, out of room `r1`; his read
error afterwards enqueues nothing on Carol, who is not in that room. -/
theorem write_failure_deregisters_later_reads_stay_in_room_witness :
    (demo_after (demo_joined ++ [Event.posted 1])).state_.members "r1" = {0, 1} ∧
    (demo_after demo_write_failed).state_.members "r1" = {0} ∧
    (demo_after (demo_joined ++ [Event.posted 1])).state_.members
        ((demo_after (demo_joined ++ [Event.posted 1])).sess 1).room_ =
      insert 1 ((demo_after demo_write_failed).state_.members
        ((demo_after (demo_joined ++ [Event.posted 1])).sess 1).room_) ∧
    ((demo_after (demo_write_failed ++ [Event.on_read 1 ReadResult.error])).sess 2).sent =
      ((demo_after demo_write_failed).sess 2).sent :=
  ⟨by decide, by decide,
    (write_failure_deregisters_later_reads_stay_in_room demo_targets
      (demo_joined ++ [Event.posted 1])
      (demo_after (demo_joined ++ [Event.posted 1])) (demo_after demo_write_failed) 1
      rfl (by decide) rfl).1.1,
    (((write_failure_deregisters_later_reads_stay_in_room demo_targets
      (demo_joined ++ [Event.posted 1])
      (demo_after (demo_joined ++ [Event.posted 1])) (demo_after demo_write_failed) 1
      rfl (by decide) rfl).2.2 [] (demo_after demo_write_failed) ReadResult.error
      (demo_after (demo_write_failed ++ [Event.on_read 1 ReadResult.error])) rfl rfl).2.2 2
      (by decide)).1⟩

/-- Two frames of Alice reach the transport of Bob in the order read. -/
theorem same_sender_frames_keep_their_order_witness :
    ((demo_after demo_order).sess 1).wire =
      ["[系统] Bob 加入了房间", "Alice: one", "Alice: two"] ∧
    ((demo_after demo_joined).sess 1).sent.length = 1 ∧
    ((demo_after demo_order).sess 1).sent[((demo_after demo_joined).sess 1).sent.length]? =
      some (((demo_after demo_joined).sess 0).name_ ++ ": " ++ "one") :=
  ⟨by decide, by decide,
    (same_sender_frames_keep_their_order demo_targets demo_joined [Event.posted 1]
      [Event.posted 1, Event.posted 1, Event.on_write 1 false, Event.on_write 1 false,
        Event.on_write 1 false]
      (demo_after demo_joined)
      (demo_after (demo_joined ++ [Event.on_read 0 (ReadResult.frame "one")]))
      (demo_after (demo_joined ++ [Event.on_read 0 (ReadResult.frame "one"), Event.posted 1]))
      (demo_after (demo_joined ++ [Event.on_read 0 (ReadResult.frame "one"), Event.posted 1,
        Event.on_read 0 (ReadResult.frame "two")]))
      (demo_after demo_order) 0 1 "one" "two" rfl rfl rfl rfl rfl (by decide) (by decide)).2.1⟩

/-- Counterexample to C9 as stated.  For the name `Alice` the join notice enqueued
is the text of the source, not `[system] Alice joined the room`. -/
theorem join_notice_is_not_the_english_text :
    (demo.sess 0).name_ = "Alice" ∧
    (run demo [Event.on_accept 0 false]).map (fun w => (w.sess 0).sent) =
      some ["[系统] Alice 加入了房间"] ∧
    (run demo [Event.on_accept 0 false]).map (fun w => (w.sess 0).sent) ≠
      some ["[system] Alice joined the room"] :=
  ⟨by decide, by decide, by decide⟩

/-- The upgrade of Alice puts her in room `r1` and sends her the join notice. -/
theorem join_notice_is_the_source_text_witness :
    (demo.sess 0).name_ = "Alice" ∧
    (demo_after [Event.on_accept 0 false]).state_.members (demo.sess 0).room_ =
      insert 0 (demo.state_.members (demo.sess 0).room_) ∧
    ((demo_after [Event.on_accept 0 false]).sess 0).sent = ["[系统] Alice 加入了房间"] :=
  ⟨by decide,
    (join_notice_is_the_source_text demo (demo_after [Event.on_accept 0 false]) 0 rfl).1,
    by decide⟩

end NetChat
